import Mathlib

/-!
Verification development for the Minesweeper knowledge-base inference engine
(src/minesweeper.py).  The Python classes `Sentence` and `MinesweeperAI` are
shallowly embedded: Python sets of cells become `Finset (ℤ × ℤ)`, the ordered
knowledge base becomes a `List Sentence`, and the unbounded `while` fixpoint
loop of `add_knowledge` becomes a fuelled iteration returning `Option`.
-/

abbrev Cell : Type := ℤ × ℤ

/-- Embedding of the Python class `Sentence`: a set of board cells together
with the number of those cells that are mines. -/
structure Sentence where
  cells : Finset Cell
  count : ℤ
  deriving DecidableEq

/-- Python `Sentence.known_mines`: the whole cell set when `len(cells) == count`,
otherwise the empty set. -/
def Sentence.known_mines (s : Sentence) : Finset Cell :=
  if (s.cells.card : ℤ) = s.count then s.cells else ∅

/-- Python `Sentence.known_safes`: the whole cell set when `count == 0`,
otherwise the empty set. -/
def Sentence.known_safes (s : Sentence) : Finset Cell :=
  if s.count = 0 then s.cells else ∅

/-- Python `Sentence.mark_mine`: if the cell is a member, remove it and
decrement the count; otherwise do nothing. -/
def Sentence.mark_mine (s : Sentence) (c : Cell) : Sentence :=
  if c ∈ s.cells then ⟨s.cells.erase c, s.count - 1⟩ else s

/-- Python `Sentence.mark_safe`: if the cell is a member, remove it leaving
the count unchanged; otherwise do nothing. -/
def Sentence.mark_safe (s : Sentence) (c : Cell) : Sentence :=
  if c ∈ s.cells then ⟨s.cells.erase c, s.count⟩ else s

/-- Embedding of the mutable state of the Python class `MinesweeperAI`. -/
structure AIState where
  height : ℤ
  width : ℤ
  moves_made : Finset Cell
  mines : Finset Cell
  safes : Finset Cell
  knowledge : List Sentence
  deriving DecidableEq

/-- Python `MinesweeperAI.mark_mine`: add the cell to `mines` and apply
`Sentence.mark_mine` to every sentence of the knowledge base. -/
def AIState.mark_mine (s : AIState) (c : Cell) : AIState :=
  { s with
    mines := insert c s.mines,
    knowledge := s.knowledge.map (fun st => st.mark_mine c) }

/-- Python `MinesweeperAI.mark_safe`: add the cell to `safes` and apply
`Sentence.mark_safe` to every sentence of the knowledge base. -/
def AIState.mark_safe (s : AIState) (c : Cell) : AIState :=
  { s with
    safes := insert c s.safes,
    knowledge := s.knowledge.map (fun st => st.mark_safe c) }

/-- The list comprehension `all_cells_around` of `add_knowledge`: all in-bounds
cells within one row and one column of `c`, excluding `c` itself. -/
def around (h w : ℤ) (c : Cell) : List Cell :=
  (([c.1 - 1, c.1, c.1 + 1].flatMap
      (fun i => [c.2 - 1, c.2, c.2 + 1].map (fun j => ((i, j) : Cell))))).filter
    (fun p => decide (0 ≤ p.1 ∧ p.1 < h ∧ 0 ≤ p.2 ∧ p.2 < w ∧ p ≠ c))

/-- The `for neighbor in all_cells_around` loop of `add_knowledge` step 3:
neighbors already known as mines decrement the count, neighbors of unknown
status are collected into the new sentence cell set. -/
def adjustFold (s : AIState) : List Cell → Finset Cell × ℤ → Finset Cell × ℤ
  | [], acc => acc
  | n :: t, acc =>
    if n ∈ s.mines then adjustFold s t (acc.1, acc.2 - 1)
    else if n ∉ s.moves_made ∧ n ∉ s.mines ∧ n ∉ s.safes then
      adjustFold s t (insert n acc.1, acc.2)
    else adjustFold s t acc

/-- Steps 1 to 3 of Python `MinesweeperAI.add_knowledge`: record the move,
mark the observed cell safe, and append the adjusted sentence when its cell
set is non-empty. -/
def AIState.ingest (s : AIState) (c : Cell) (count : ℤ) : AIState :=
  let s1 : AIState := { s with moves_made := insert c s.moves_made }
  let s2 := s1.mark_safe c
  let a := adjustFold s2 (around s2.height s2.width c) (∅, count)
  { s2 with knowledge := if a.1 ≠ ∅ then s2.knowledge ++ [⟨a.1, a.2⟩] else s2.knowledge }

/-- The clean-up at the top of each propagation pass: keep only sentences
whose cell set is non-empty. -/
def clean (kb : List Sentence) : List Sentence :=
  kb.filter (fun st => decide (st.cells ≠ ∅))

/-- The `adjusted_mines.update(sentence.known_mines())` accumulation of a pass. -/
def collectMines (kb : List Sentence) : Finset Cell :=
  kb.foldl (fun acc st => acc ∪ st.known_mines) ∅

/-- The `adjusted_safes.update(sentence.known_safes())` accumulation of a pass. -/
def collectSafes (kb : List Sentence) : Finset Cell :=
  kb.foldl (fun acc st => acc ∪ st.known_safes) ∅

/-- The subset-elimination derivation for one ordered pair of sentences:
skip structurally equal pairs, require both non-empty, and subtract the subset
sentence from the superset one. -/
def pairDerive (s1 s2 : Sentence) : Option Sentence :=
  if s1 = s2 then none
  else if s1.cells ≠ ∅ ∧ s2.cells ≠ ∅ then
    if s1.cells ⊆ s2.cells then some ⟨s2.cells \ s1.cells, s2.count - s1.count⟩
    else if s2.cells ⊆ s1.cells then some ⟨s1.cells \ s2.cells, s1.count - s2.count⟩
    else none
  else none

/-- Appending a derived sentence to `new_knowledge` when it is structurally
new with respect to the knowledge base and to sentences derived earlier in
the same pass. -/
def considerPair (kb acc : List Sentence) (s1 s2 : Sentence) : List Sentence :=
  (pairDerive s1 s2).elim acc
    (fun ns => if ns ∉ kb ∧ ns ∉ acc then acc ++ [ns] else acc)

/-- The full `new_knowledge` list built by the nested pair loop of one pass. -/
def deriveStep (kb : List Sentence) : List Sentence :=
  kb.foldl (fun acc s1 => kb.foldl (fun acc2 s2 => considerPair kb acc2 s1 s2) acc) []

/-- The effect on the sentence list of the `for mine in adjusted_mines` loop
when `M` is the set of newly discovered mines: each such cell is removed from
every sentence and each sentence count drops by the number of its cells
removed (one engine-level `mark_mine` call per cell, order independent). -/
def markMinesKb (M : Finset Cell) (kb : List Sentence) : List Sentence :=
  kb.map (fun st => ⟨st.cells \ M, st.count - ((st.cells ∩ M).card : ℤ)⟩)

/-- The effect on the sentence list of the `for safe in adjusted_safes` loop
when `S` is the set of newly discovered safe cells: each such cell is removed
from every sentence, counts unchanged. -/
def markSafesKb (S : Finset Cell) (kb : List Sentence) : List Sentence :=
  kb.map (fun st => ⟨st.cells \ S, st.count⟩)

/-- The `adjusted_mines` set of the pass run on state `s`. -/
def passMines (s : AIState) : Finset Cell := collectMines (clean s.knowledge)

/-- The `adjusted_safes` set of the pass run on state `s`. -/
def passSafes (s : AIState) : Finset Cell := collectSafes (clean s.knowledge)

/-- The sentence list of the pass after cleaning and both marking loops,
before subset elimination.  Only cells not already in `mines` respectively
`safes` are marked, matching the `if mine not in self.mines` guards. -/
def passKb (s : AIState) : List Sentence :=
  markSafesKb (passSafes s \ s.safes)
    (markMinesKb (passMines s \ s.mines) (clean s.knowledge))

/-- One full body of the `while(repeat)` loop of `add_knowledge`: clean,
collect certain cells, mark them, run subset elimination, extend, and report
whether the pass flagged `repeat` (any non-empty certain set seen, any cell
newly marked, or any structurally new sentence appended). -/
def pass1 (s : AIState) : AIState × Bool :=
  ({ s with
      mines := s.mines ∪ passMines s,
      safes := s.safes ∪ passSafes s,
      knowledge :=
        if deriveStep (passKb s) = [] then passKb s
        else passKb s ++ deriveStep (passKb s) },
   (clean s.knowledge).any (fun st => decide (st.known_mines ≠ ∅))
     || (clean s.knowledge).any (fun st => decide (st.known_safes ≠ ∅))
     || decide ((passMines s \ s.mines) ≠ ∅)
     || decide ((passSafes s \ s.safes) ≠ ∅)
     || decide (deriveStep (passKb s) ≠ []))

/-- The `while(repeat)` loop with explicit fuel: `none` when the loop has not
converged within the given number of passes. -/
def runFix : ℕ → AIState → Option AIState
  | 0, _ => none
  | n + 1, s =>
    let p := pass1 s
    if p.2 then runFix n p.1 else some p.1

/-- Python `MinesweeperAI.add_knowledge` (the `observe` entry point): ingest
the observation and run the propagation loop to its fixpoint, `none` when the
loop does not converge within the fuel. -/
def AIState.add_knowledge (fuel : ℕ) (s : AIState) (c : Cell) (count : ℤ) : Option AIState :=
  runFix fuel (s.ingest c count)

lemma Sentence.eqOf {a b : Sentence} (h1 : a.cells = b.cells) (h2 : a.count = b.count) :
    a = b := by
  cases a; cases b
  simp only at h1 h2
  subst h1 h2
  rfl

/-- Structural Boolean comparison of knowledge bases, written as a plain
recursion so that it evaluates by unfolding alone. -/
def kbBeq : List Sentence → List Sentence → Bool
  | [], [] => true
  | a :: as, b :: bs =>
    decide (a.cells = b.cells) && decide (a.count = b.count) && kbBeq as bs
  | _, _ => false

lemma kbBeq_eq : ∀ {k1 k2 : List Sentence}, kbBeq k1 k2 = true → k1 = k2
  | [], [], _ => rfl
  | a :: as, b :: bs, h => by
    simp only [kbBeq, Bool.and_eq_true, decide_eq_true_eq] at h
    obtain ⟨⟨h1, h2⟩, h3⟩ := h
    rw [Sentence.eqOf h1 h2, kbBeq_eq h3]

/-- Componentwise equality of engine states; each component is small enough
for kernel evaluation, unlike the derived whole-record instance. -/
abbrev stEq (s t : AIState) : Prop :=
  s.height = t.height ∧ s.width = t.width ∧ s.moves_made = t.moves_made ∧
  s.mines = t.mines ∧ s.safes = t.safes ∧ kbBeq s.knowledge t.knowledge = true

lemma stEq.eq {s t : AIState} (h : stEq s t) : s = t := by
  obtain ⟨h1, h2, h3, h4, h5, h6⟩ := h
  have h7 := kbBeq_eq h6
  cases s; cases t
  simp only at h1 h2 h3 h4 h5 h7
  subst h1 h2 h3 h4 h5 h7
  rfl

lemma passEq {s t : AIState} {b : Bool} (h1 : stEq (pass1 s).1 t) (h2 : (pass1 s).2 = b) :
    pass1 s = (t, b) :=
  Prod.ext h1.eq h2

lemma runFix_succ_true {s t : AIState} (h : pass1 s = (t, true)) (n : ℕ) :
    runFix (n + 1) s = runFix n t := by
  simp [runFix, h]

lemma runFix_succ_false {s t : AIState} (h : pass1 s = (t, false)) (n : ℕ) :
    runFix (n + 1) s = some t := by
  simp [runFix, h]

lemma add_knowledge_def (fuel : ℕ) (s : AIState) (c : Cell) (k : ℤ) :
    AIState.add_knowledge fuel s c k = runFix fuel (s.ingest c k) :=
  rfl

/-- C8: for every constraint, the known-hazard query returns the whole cell
set when the count equals the number of cells and the empty set otherwise,
and the known-safe query returns the whole cell set when the count is zero
and the empty set otherwise; both are pure functions of the constraint. -/
theorem claim_C8 (s : Sentence) :
    ((s.cells.card : ℤ) = s.count → s.known_mines = s.cells) ∧
    ((s.cells.card : ℤ) ≠ s.count → s.known_mines = ∅) ∧
    (s.count = 0 → s.known_safes = s.cells) ∧
    (s.count ≠ 0 → s.known_safes = ∅) := by
  refine ⟨?_, ?_, ?_, ?_⟩ <;> intro h <;>
    simp [Sentence.known_mines, Sentence.known_safes, h]

theorem claim_C8_witness :
    ((((⟨{(0, 0)}, 1⟩ : Sentence).cells.card : ℤ) = (⟨{(0, 0)}, 1⟩ : Sentence).count) ∧
      (⟨{(0, 0)}, 1⟩ : Sentence).known_mines = {(0, 0)}) ∧
    ((⟨{(0, 0)}, 1⟩ : Sentence).count ≠ 0 ∧
      (⟨{(0, 0)}, 1⟩ : Sentence).known_safes = ∅) :=
  ⟨⟨by decide, (claim_C8 ⟨{(0, 0)}, 1⟩).1 (by decide)⟩,
   ⟨by decide, (claim_C8 ⟨{(0, 0)}, 1⟩).2.2.2 (by decide)⟩⟩

/-- C10: the engine-level hazard assertion leaves the played set, the safe
set and the length of the constraint list unchanged, mutating each listed
constraint in place through the sentence-level operation; symmetrically the
safe assertion leaves the played set, the hazard set and the constraint-list
length unchanged. -/
theorem claim_C10 (s : AIState) (c : Cell) :
    (s.mark_mine c).moves_made = s.moves_made ∧ (s.mark_mine c).safes = s.safes ∧
    (s.mark_mine c).knowledge.length = s.knowledge.length ∧
    (s.mark_mine c).knowledge = s.knowledge.map (fun st => st.mark_mine c) ∧
    (s.mark_safe c).moves_made = s.moves_made ∧ (s.mark_safe c).mines = s.mines ∧
    (s.mark_safe c).knowledge.length = s.knowledge.length ∧
    (s.mark_safe c).knowledge = s.knowledge.map (fun st => st.mark_safe c) := by
  simp [AIState.mark_mine, AIState.mark_safe]

/-- C5 (amended): the hazard assertion adds the cell to the hazard set and
applies the sentence-level hazard marking to every constraint, and the safe
assertion adds the cell to the safe set and applies the safe marking to every
constraint; neither re-runs the propagation fixpoint, as their full state
characterization shows. -/
theorem claim_C5 (s : AIState) (c : Cell) :
    s.mark_mine c = ⟨s.height, s.width, s.moves_made, insert c s.mines, s.safes,
        s.knowledge.map (fun st => st.mark_mine c)⟩ ∧
    s.mark_safe c = ⟨s.height, s.width, s.moves_made, s.mines, insert c s.safes,
        s.knowledge.map (fun st => st.mark_safe c)⟩ :=
  ⟨rfl, rfl⟩

/-- C5 counterexample: after asserting a hazard the engine state is not a
propagation fixpoint although the fixpoint from it exists and differs, so the
assertion did not re-run the propagation loop as the claim states. -/
theorem claim_C5_counterexample :
    (pass1 ((⟨1, 3, ∅, ∅, ∅, [⟨{(0, 0), (0, 1)}, 2⟩]⟩ : AIState).mark_mine (0, 0))).2 = true ∧
    runFix 2 ((⟨1, 3, ∅, ∅, ∅, [⟨{(0, 0), (0, 1)}, 2⟩]⟩ : AIState).mark_mine (0, 0))
      = some ⟨1, 3, ∅, {(0, 0), (0, 1)}, ∅, []⟩ ∧
    (⟨1, 3, ∅, ∅, ∅, [⟨{(0, 0), (0, 1)}, 2⟩]⟩ : AIState).mark_mine (0, 0)
      ≠ ⟨1, 3, ∅, {(0, 0), (0, 1)}, ∅, []⟩ := by
  have hm : (⟨1, 3, ∅, ∅, ∅, [⟨{(0, 0), (0, 1)}, 2⟩]⟩ : AIState).mark_mine (0, 0)
      = ⟨1, 3, ∅, {(0, 0)}, ∅, [⟨{(0, 1)}, 1⟩]⟩ := stEq.eq (by decide)
  have h1 : pass1 ⟨1, 3, ∅, {(0, 0)}, ∅, [⟨{(0, 1)}, 1⟩]⟩
      = (⟨1, 3, ∅, {(0, 0), (0, 1)}, ∅, [⟨∅, 0⟩]⟩, true) := passEq (by decide) (by decide)
  have h2 : pass1 ⟨1, 3, ∅, {(0, 0), (0, 1)}, ∅, [⟨∅, 0⟩]⟩
      = (⟨1, 3, ∅, {(0, 0), (0, 1)}, ∅, []⟩, false) := passEq (by decide) (by decide)
  refine ⟨by rw [hm, h1], ?_, ?_⟩
  · rw [hm, runFix_succ_true h1 1, runFix_succ_false h2 0]
  · rw [hm]
    intro h
    exact absurd (congrArg AIState.mines h) (by decide)

/-- C2: on an observation whose adjusted count is negative given the already
known hazards, the engine silently stores a constraint with count minus one
instead of raising an invariant-violation failure; the run below reaches such
a state from two observe calls on a one-by-four grid. -/
theorem claim_C2 :
    AIState.add_knowledge 2 ⟨1, 4, ∅, ∅, ∅, []⟩ (0, 3) 1
      = some ⟨1, 4, {(0, 3)}, {(0, 2)}, {(0, 3)}, []⟩ ∧
    AIState.add_knowledge 1 ⟨1, 4, {(0, 3)}, {(0, 2)}, {(0, 3)}, []⟩ (0, 1) 0
      = some ⟨1, 4, {(0, 1), (0, 3)}, {(0, 2)}, {(0, 1), (0, 3)}, [⟨{(0, 0)}, -1⟩]⟩ ∧
    (⟨{(0, 0)}, -1⟩ : Sentence)
      ∈ (⟨1, 4, {(0, 1), (0, 3)}, {(0, 2)}, {(0, 1), (0, 3)}, [⟨{(0, 0)}, -1⟩]⟩ : AIState).knowledge := by
  have g0 : (⟨1, 4, ∅, ∅, ∅, []⟩ : AIState).ingest (0, 3) 1
      = ⟨1, 4, {(0, 3)}, ∅, {(0, 3)}, [⟨{(0, 2)}, 1⟩]⟩ := stEq.eq (by decide)
  have g1 : pass1 ⟨1, 4, {(0, 3)}, ∅, {(0, 3)}, [⟨{(0, 2)}, 1⟩]⟩
      = (⟨1, 4, {(0, 3)}, {(0, 2)}, {(0, 3)}, [⟨∅, 0⟩]⟩, true) := passEq (by decide) (by decide)
  have g2 : pass1 ⟨1, 4, {(0, 3)}, {(0, 2)}, {(0, 3)}, [⟨∅, 0⟩]⟩
      = (⟨1, 4, {(0, 3)}, {(0, 2)}, {(0, 3)}, []⟩, false) := passEq (by decide) (by decide)
  have g3 : (⟨1, 4, {(0, 3)}, {(0, 2)}, {(0, 3)}, []⟩ : AIState).ingest (0, 1) 0
      = ⟨1, 4, {(0, 1), (0, 3)}, {(0, 2)}, {(0, 1), (0, 3)}, [⟨{(0, 0)}, -1⟩]⟩ := stEq.eq (by decide)
  have g4 : pass1 ⟨1, 4, {(0, 1), (0, 3)}, {(0, 2)}, {(0, 1), (0, 3)}, [⟨{(0, 0)}, -1⟩]⟩
      = (⟨1, 4, {(0, 1), (0, 3)}, {(0, 2)}, {(0, 1), (0, 3)}, [⟨{(0, 0)}, -1⟩]⟩, false) :=
    passEq (by decide) (by decide)
  refine ⟨?_, ?_, by decide⟩
  · rw [add_knowledge_def, g0, runFix_succ_true g1 1, runFix_succ_false g2 0]
  · rw [add_knowledge_def, g3, runFix_succ_false g4 0]

/-- C6: a second observe call on an already played cell is not rejected: the
engine processes it again and appends a duplicate constraint, so the
knowledge base ends with two copies of the same sentence. -/
theorem claim_C6 :
    AIState.add_knowledge 1 ⟨1, 3, ∅, ∅, ∅, []⟩ (0, 1) 1
      = some ⟨1, 3, {(0, 1)}, ∅, {(0, 1)}, [⟨{(0, 0), (0, 2)}, 1⟩]⟩ ∧
    (0, 1) ∈ (⟨1, 3, {(0, 1)}, ∅, {(0, 1)}, [⟨{(0, 0), (0, 2)}, 1⟩]⟩ : AIState).moves_made ∧
    AIState.add_knowledge 1 ⟨1, 3, {(0, 1)}, ∅, {(0, 1)}, [⟨{(0, 0), (0, 2)}, 1⟩]⟩ (0, 1) 1
      = some ⟨1, 3, {(0, 1)}, ∅, {(0, 1)},
          [⟨{(0, 0), (0, 2)}, 1⟩, ⟨{(0, 0), (0, 2)}, 1⟩]⟩ ∧
    (⟨1, 3, {(0, 1)}, ∅, {(0, 1)},
        [⟨{(0, 0), (0, 2)}, 1⟩, ⟨{(0, 0), (0, 2)}, 1⟩]⟩ : AIState).knowledge.length = 2 := by
  have g0 : (⟨1, 3, ∅, ∅, ∅, []⟩ : AIState).ingest (0, 1) 1
      = ⟨1, 3, {(0, 1)}, ∅, {(0, 1)}, [⟨{(0, 0), (0, 2)}, 1⟩]⟩ := stEq.eq (by decide)
  have g1 : pass1 ⟨1, 3, {(0, 1)}, ∅, {(0, 1)}, [⟨{(0, 0), (0, 2)}, 1⟩]⟩
      = (⟨1, 3, {(0, 1)}, ∅, {(0, 1)}, [⟨{(0, 0), (0, 2)}, 1⟩]⟩, false) :=
    passEq (by decide) (by decide)
  have g2 : (⟨1, 3, {(0, 1)}, ∅, {(0, 1)}, [⟨{(0, 0), (0, 2)}, 1⟩]⟩ : AIState).ingest (0, 1) 1
      = ⟨1, 3, {(0, 1)}, ∅, {(0, 1)}, [⟨{(0, 0), (0, 2)}, 1⟩, ⟨{(0, 0), (0, 2)}, 1⟩]⟩ :=
    stEq.eq (by decide)
  have g3 : pass1 ⟨1, 3, {(0, 1)}, ∅, {(0, 1)}, [⟨{(0, 0), (0, 2)}, 1⟩, ⟨{(0, 0), (0, 2)}, 1⟩]⟩
      = (⟨1, 3, {(0, 1)}, ∅, {(0, 1)}, [⟨{(0, 0), (0, 2)}, 1⟩, ⟨{(0, 0), (0, 2)}, 1⟩]⟩, false) :=
    passEq (by decide) (by decide)
  exact ⟨by rw [add_knowledge_def, g0, runFix_succ_false g1 0], by decide,
    by rw [add_knowledge_def, g2, runFix_succ_false g3 0], by decide⟩

lemma markMinesKb_empty (kb : List Sentence) : markMinesKb ∅ kb = kb := by
  induction kb with
  | nil => rfl
  | cons a t ih =>
    unfold markMinesKb at ih ⊢
    rw [List.map_cons, ih]
    congr 1
    exact Sentence.eqOf Finset.sdiff_empty (by simp)

lemma markSafesKb_empty (kb : List Sentence) : markSafesKb ∅ kb = kb := by
  induction kb with
  | nil => rfl
  | cons a t ih =>
    unfold markSafesKb at ih ⊢
    rw [List.map_cons, ih]
    congr 1
    exact Sentence.eqOf Finset.sdiff_empty rfl

lemma clean_idem (kb : List Sentence) : clean (clean kb) = clean kb := by
  induction kb with
  | nil => rfl
  | cons a t ih =>
    unfold clean at ih ⊢
    by_cases h : a.cells = ∅ <;> simp [h, ih]

lemma pass1_false_parts {s s' : AIState} (h : pass1 s = (s', false)) :
    ((clean s.knowledge).any (fun st => decide (st.known_mines ≠ ∅)) = false) ∧
    ((clean s.knowledge).any (fun st => decide (st.known_safes ≠ ∅)) = false) ∧
    passMines s ⊆ s.mines ∧ passSafes s ⊆ s.safes ∧
    deriveStep (passKb s) = [] ∧ passKb s = clean s.knowledge ∧
    s' = { s with knowledge := clean s.knowledge } := by
  unfold pass1 at h
  rw [Prod.mk.injEq] at h
  obtain ⟨hst, hfl⟩ := h
  simp only [Bool.or_eq_false_iff] at hfl
  obtain ⟨⟨⟨⟨h1, h2⟩, h3⟩, h4⟩, h5⟩ := hfl
  rw [decide_eq_false_iff_not, not_not] at h3 h4 h5
  have hM : passMines s ⊆ s.mines := Finset.sdiff_eq_empty_iff_subset.mp h3
  have hS : passSafes s ⊆ s.safes := Finset.sdiff_eq_empty_iff_subset.mp h4
  have hkb : passKb s = clean s.knowledge := by
    unfold passKb
    rw [h3, h4, markMinesKb_empty, markSafesKb_empty]
  have h5x : deriveStep (clean s.knowledge) = [] := by rw [← hkb]; exact h5
  refine ⟨h1, h2, hM, hS, h5, hkb, ?_⟩
  rw [← hst]
  simp [Finset.union_eq_left.mpr hM, Finset.union_eq_left.mpr hS, h5, hkb, h5x]

lemma pass1_fixpoint {s s' : AIState} (h : pass1 s = (s', false)) :
    pass1 s' = (s', false) := by
  obtain ⟨h1, h2, hM, hS, hE, hkb, hs'⟩ := pass1_false_parts h
  have hknow : s'.knowledge = clean s.knowledge := by rw [hs']
  have hclean : clean s'.knowledge = s'.knowledge := by
    rw [hknow, clean_idem]
  have hmines : s'.mines = s.mines := by rw [hs']
  have hsafes : s'.safes = s.safes := by rw [hs']
  have hpm : passMines s' = passMines s := by
    unfold passMines
    rw [hclean, hknow]
  have hps : passSafes s' = passSafes s := by
    unfold passSafes
    rw [hclean, hknow]
  have hMd : passMines s' \ s'.mines = ∅ := by
    rw [hpm, hmines, Finset.sdiff_eq_empty_iff_subset]
    exact hM
  have hSd : passSafes s' \ s'.safes = ∅ := by
    rw [hps, hsafes, Finset.sdiff_eq_empty_iff_subset]
    exact hS
  have hkb' : passKb s' = s'.knowledge := by
    unfold passKb
    rw [hMd, hSd, markMinesKb_empty, markSafesKb_empty, hclean]
  have hE' : deriveStep (passKb s') = [] := by
    rw [hkb', hknow, ← hkb]
    exact hE
  unfold pass1
  rw [Prod.mk.injEq]
  have hE2 : deriveStep s'.knowledge = [] := by rw [← hkb']; exact hE'
  constructor
  · simp only [hE', hE2, hkb', hpm, hps, hmines, hsafes,
      Finset.union_eq_left.mpr hM, Finset.union_eq_left.mpr hS, if_pos]
    rw [← hmines, ← hsafes]
  · rw [hclean, hknow, h1, h2, hMd, hSd, hE']
    simp

/-- C9: the propagation fixpoint is idempotent: from any engine state whose
pass reports no change, running the propagation loop again (any positive
fuel) returns the same state, leaving the played, safe and hazard sets and
the constraint list unchanged. -/
theorem claim_C9 (s s' : AIState) (n : ℕ) (h : pass1 s = (s', false)) :
    runFix (n + 1) s' = some s' :=
  runFix_succ_false (pass1_fixpoint h) n

theorem claim_C9_witness :
    pass1 ⟨1, 3, ∅, ∅, ∅, [⟨{(0, 0), (0, 1)}, 1⟩]⟩
      = (⟨1, 3, ∅, ∅, ∅, [⟨{(0, 0), (0, 1)}, 1⟩]⟩, false) ∧
    runFix 1 ⟨1, 3, ∅, ∅, ∅, [⟨{(0, 0), (0, 1)}, 1⟩]⟩
      = some ⟨1, 3, ∅, ∅, ∅, [⟨{(0, 0), (0, 1)}, 1⟩]⟩ :=
  ⟨passEq (by decide) (by decide),
   claim_C9 ⟨1, 3, ∅, ∅, ∅, [⟨{(0, 0), (0, 1)}, 1⟩]⟩
     ⟨1, 3, ∅, ∅, ∅, [⟨{(0, 0), (0, 1)}, 1⟩]⟩ 0 (passEq (by decide) (by decide))⟩

lemma considerPair_mem (kb acc : List Sentence) (s1 s2 ns : Sentence) :
    ns ∈ considerPair kb acc s1 s2 ↔ ns ∈ acc ∨ (ns ∉ kb ∧ pairDerive s1 s2 = some ns) := by
  cases hp : pairDerive s1 s2 with
  | none => simp [considerPair, hp]
  | some m =>
    rw [considerPair, hp, Option.elim_some]
    by_cases hm : m ∉ kb ∧ m ∉ acc
    · rw [if_pos hm]
      simp only [List.mem_append, List.mem_singleton, Option.some.injEq]
      constructor
      · rintro (h | rfl)
        · exact Or.inl h
        · exact Or.inr ⟨hm.1, rfl⟩
      · rintro (h | ⟨hnk, rfl⟩)
        · exact Or.inl h
        · exact Or.inr rfl
    · rw [if_neg hm]
      push_neg at hm
      simp only [Option.some.injEq]
      constructor
      · exact Or.inl
      · rintro (h | ⟨hnk, rfl⟩)
        · exact h
        · exact hm hnk
  

lemma foldl_consider_mem (kb : List Sentence) (s1 : Sentence) :
    ∀ (l acc : List Sentence) (ns : Sentence),
      ns ∈ l.foldl (fun a s2 => considerPair kb a s1 s2) acc ↔
        ns ∈ acc ∨ (ns ∉ kb ∧ ∃ s2 ∈ l, pairDerive s1 s2 = some ns)
  | [], acc, ns => by simp
  | b :: t, acc, ns => by
    rw [List.foldl_cons, foldl_consider_mem kb s1 t _ ns, considerPair_mem]
    simp only [List.mem_cons]
    constructor
    · rintro ((h | ⟨hk, hp⟩) | ⟨hk, s2, hs2, hp⟩)
      · exact Or.inl h
      · exact Or.inr ⟨hk, b, Or.inl rfl, hp⟩
      · exact Or.inr ⟨hk, s2, Or.inr hs2, hp⟩
    · rintro (h | ⟨hk, s2, (rfl | hs2), hp⟩)
      · exact Or.inl (Or.inl h)
      · exact Or.inl (Or.inr ⟨hk, hp⟩)
      · exact Or.inr ⟨hk, s2, hs2, hp⟩

lemma foldl_derive_mem (kb : List Sentence) :
    ∀ (l acc : List Sentence) (ns : Sentence),
      ns ∈ l.foldl (fun a s1 => kb.foldl (fun a2 s2 => considerPair kb a2 s1 s2) a) acc ↔
        ns ∈ acc ∨ (ns ∉ kb ∧ ∃ s1 ∈ l, ∃ s2 ∈ kb, pairDerive s1 s2 = some ns)
  | [], acc, ns => by simp
  | b :: t, acc, ns => by
    rw [List.foldl_cons, foldl_derive_mem kb t _ ns, foldl_consider_mem]
    simp only [List.mem_cons]
    constructor
    · rintro ((h | ⟨hk, s2, hs2, hp⟩) | ⟨hk, s1, hs1, s2, hs2, hp⟩)
      · exact Or.inl h
      · exact Or.inr ⟨hk, b, Or.inl rfl, s2, hs2, hp⟩
      · exact Or.inr ⟨hk, s1, Or.inr hs1, s2, hs2, hp⟩
    · rintro (h | ⟨hk, s1, (rfl | hs1), s2, hs2, hp⟩)
      · exact Or.inl (Or.inl h)
      · exact Or.inl (Or.inr ⟨hk, s2, hs2, hp⟩)
      · exact Or.inr ⟨hk, s1, hs1, s2, hs2, hp⟩

lemma deriveStep_mem (kb : List Sentence) (ns : Sentence) :
    ns ∈ deriveStep kb ↔
      ns ∉ kb ∧ ∃ s1 ∈ kb, ∃ s2 ∈ kb, pairDerive s1 s2 = some ns := by
  unfold deriveStep
  rw [foldl_derive_mem]
  simp

lemma pairDerive_some {s1 s2 ns : Sentence} :
    pairDerive s1 s2 = some ns ↔
      s1 ≠ s2 ∧ s1.cells ≠ ∅ ∧ s2.cells ≠ ∅ ∧
        ((s1.cells ⊆ s2.cells ∧ ns = ⟨s2.cells \ s1.cells, s2.count - s1.count⟩) ∨
         (¬s1.cells ⊆ s2.cells ∧ s2.cells ⊆ s1.cells ∧
           ns = ⟨s1.cells \ s2.cells, s1.count - s2.count⟩)) := by
  unfold pairDerive
  split_ifs with h1 h2 h3 h4 <;>
    simp_all [Option.some.injEq, eq_comm, not_or]

lemma deriveStep_mem_pair (kb : List Sentence) (ns : Sentence) :
    ns ∈ deriveStep kb ↔
      ns ∉ kb ∧ ∃ A ∈ kb, ∃ B ∈ kb, A ≠ B ∧ A.cells ≠ ∅ ∧ B.cells ≠ ∅ ∧
        A.cells ⊆ B.cells ∧ ns = ⟨B.cells \ A.cells, B.count - A.count⟩ := by
  rw [deriveStep_mem]
  constructor
  · rintro ⟨hnk, s1, hs1, s2, hs2, hp⟩
    rw [pairDerive_some] at hp
    obtain ⟨hne, hc1, hc2, hcase⟩ := hp
    rcases hcase with ⟨hsub, hns⟩ | ⟨hnsub, hsub, hns⟩
    · exact ⟨hnk, s1, hs1, s2, hs2, hne, hc1, hc2, hsub, hns⟩
    · exact ⟨hnk, s2, hs2, s1, hs1, hne.symm, hc2, hc1, hsub, hns⟩
  · rintro ⟨hnk, A, hA, B, hB, hne, hA1, hB1, hsub, hns⟩
    refine ⟨hnk, A, hA, B, hB, ?_⟩
    rw [pairDerive_some]
    exact ⟨hne, hA1, hB1, Or.inl ⟨hsub, hns⟩⟩

lemma considerPair_nodup {kb acc : List Sentence} {s1 s2 : Sentence} (h : acc.Nodup) :
    (considerPair kb acc s1 s2).Nodup := by
  cases hp : pairDerive s1 s2 with
  | none => simpa [considerPair, hp] using h
  | some m =>
    rw [considerPair, hp, Option.elim_some]
    by_cases hm : m ∉ kb ∧ m ∉ acc
    · rw [if_pos hm]
      simp [List.nodup_append, h, hm.2]
    · rw [if_neg hm]
      exact h

lemma foldl_consider_nodup (kb : List Sentence) (s1 : Sentence) :
    ∀ (l acc : List Sentence), acc.Nodup →
      (l.foldl (fun a s2 => considerPair kb a s1 s2) acc).Nodup
  | [], _, h => h
  | b :: t, acc, h => by
    rw [List.foldl_cons]
    exact foldl_consider_nodup kb s1 t _ (considerPair_nodup h)

lemma foldl_derive_nodup (kb : List Sentence) :
    ∀ (l acc : List Sentence), acc.Nodup →
      (l.foldl (fun a s1 => kb.foldl (fun a2 s2 => considerPair kb a2 s1 s2) a) acc).Nodup
  | [], _, h => h
  | b :: t, acc, h => by
    rw [List.foldl_cons]
    exact foldl_derive_nodup kb t _ (foldl_consider_nodup kb b kb acc h)

lemma deriveStep_nodup (kb : List Sentence) : (deriveStep kb).Nodup :=
  foldl_derive_nodup kb kb [] List.nodup_nil

/-- C1: subset elimination: a sentence belongs to the batch derived in a pass
exactly when it arises from an ordered pair of distinct non-empty sentences of
the knowledge base whose cell sets are in subset relation, as the difference
sentence, and it is not structurally equal to a sentence already present; the
batch never contains a sentence twice (sentences derived earlier in the same
pass suppress duplicates).  As an instance, from the constraints saying that
one hazard lies in the first three cells of a row and one in the first two,
the fixpoint derives the empty-count singleton of the third cell and adds
that cell to the safe set. -/
theorem claim_C1 :
    (∀ (kb : List Sentence) (ns : Sentence),
        ns ∈ deriveStep kb ↔
          ns ∉ kb ∧ ∃ A ∈ kb, ∃ B ∈ kb, A ≠ B ∧ A.cells ≠ ∅ ∧ B.cells ≠ ∅ ∧
            A.cells ⊆ B.cells ∧ ns = ⟨B.cells \ A.cells, B.count - A.count⟩) ∧
    (∀ kb : List Sentence, (deriveStep kb).Nodup) ∧
    ((⟨{(0, 2)}, 0⟩ : Sentence) ∈
        (pass1 ⟨1, 3, ∅, ∅, ∅,
          [⟨{(0, 0), (0, 1), (0, 2)}, 1⟩, ⟨{(0, 0), (0, 1)}, 1⟩]⟩).1.knowledge ∧
      runFix 3 ⟨1, 3, ∅, ∅, ∅, [⟨{(0, 0), (0, 1), (0, 2)}, 1⟩, ⟨{(0, 0), (0, 1)}, 1⟩]⟩
        = some ⟨1, 3, ∅, ∅, {(0, 2)}, [⟨{(0, 0), (0, 1)}, 1⟩, ⟨{(0, 0), (0, 1)}, 1⟩]⟩ ∧
      (0, 2) ∈ (⟨1, 3, ∅, ∅, {(0, 2)},
          [⟨{(0, 0), (0, 1)}, 1⟩, ⟨{(0, 0), (0, 1)}, 1⟩]⟩ : AIState).safes) := by
  have h1 : pass1 ⟨1, 3, ∅, ∅, ∅, [⟨{(0, 0), (0, 1), (0, 2)}, 1⟩, ⟨{(0, 0), (0, 1)}, 1⟩]⟩
      = (⟨1, 3, ∅, ∅, ∅,
          [⟨{(0, 0), (0, 1), (0, 2)}, 1⟩, ⟨{(0, 0), (0, 1)}, 1⟩, ⟨{(0, 2)}, 0⟩]⟩, true) :=
    passEq (by decide) (by decide)
  have h2 : pass1 ⟨1, 3, ∅, ∅, ∅,
        [⟨{(0, 0), (0, 1), (0, 2)}, 1⟩, ⟨{(0, 0), (0, 1)}, 1⟩, ⟨{(0, 2)}, 0⟩]⟩
      = (⟨1, 3, ∅, ∅, {(0, 2)},
          [⟨{(0, 0), (0, 1)}, 1⟩, ⟨{(0, 0), (0, 1)}, 1⟩, ⟨∅, 0⟩]⟩, true) :=
    passEq (by decide) (by decide)
  have h3 : pass1 ⟨1, 3, ∅, ∅, {(0, 2)},
        [⟨{(0, 0), (0, 1)}, 1⟩, ⟨{(0, 0), (0, 1)}, 1⟩, ⟨∅, 0⟩]⟩
      = (⟨1, 3, ∅, ∅, {(0, 2)}, [⟨{(0, 0), (0, 1)}, 1⟩, ⟨{(0, 0), (0, 1)}, 1⟩]⟩, false) :=
    passEq (by decide) (by decide)
  refine ⟨deriveStep_mem_pair, deriveStep_nodup, ?_, ?_, by decide⟩
  · rw [h1]
    simp
  · rw [runFix_succ_true h1 2, runFix_succ_true h2 1, runFix_succ_false h3 0]

/-- The set of all cells of the grid, used as the finite universe. -/
def grid (h w : ℤ) : Finset Cell :=
  Finset.Icc 0 (h - 1) ×ˢ Finset.Icc 0 (w - 1)

/-- The spec wording for the neighborhood of a cell: the in-bounds cells
within one row and one column of the cell, excluding the cell itself. -/
def specNeighbors (s : AIState) (c : Cell) : Finset Cell :=
  ((Finset.Icc (c.1 - 1) (c.1 + 1) ×ˢ Finset.Icc (c.2 - 1) (c.2 + 1)).erase c)
    ∩ grid s.height s.width

/-- The spec wording for the cell set of the new constraint: the neighbors in
none of the hazard, safe or played sets. -/
def specUnknown (s : AIState) (c : Cell) : Finset Cell :=
  (specNeighbors s c).filter
    (fun p => p ∉ s.mines ∧ p ∉ s.safes ∧ p ∉ s.moves_made)

lemma mem_around {h w : ℤ} {c p : Cell} :
    p ∈ around h w c ↔
      c.1 - 1 ≤ p.1 ∧ p.1 ≤ c.1 + 1 ∧ c.2 - 1 ≤ p.2 ∧ p.2 ≤ c.2 + 1 ∧
        0 ≤ p.1 ∧ p.1 < h ∧ 0 ≤ p.2 ∧ p.2 < w ∧ p ≠ c := by
  unfold around
  rw [List.mem_filter]
  simp only [List.mem_flatMap, List.mem_map, List.mem_cons, List.not_mem_nil, or_false,
    decide_eq_true_eq]
  constructor
  · rintro ⟨⟨i, hi, j, hj, rfl⟩, h1, h2, h3, h4, h5⟩
    refine ⟨?_, ?_, ?_, ?_, h1, h2, h3, h4, h5⟩ <;>
      rcases hi with rfl | rfl | rfl <;> rcases hj with rfl | rfl | rfl <;> dsimp only <;> omega
  · rintro ⟨h1, h2, h3, h4, h5, h6, h7, h8, h9⟩
    exact ⟨⟨p.1, by omega, p.2, by omega, rfl⟩, h5, h6, h7, h8, h9⟩

lemma around_toFinset (h w : ℤ) (c : Cell) :
    (around h w c).toFinset
      = ((Finset.Icc (c.1 - 1) (c.1 + 1) ×ˢ Finset.Icc (c.2 - 1) (c.2 + 1)).erase c)
          ∩ (grid h w) := by
  ext p
  rw [List.mem_toFinset, mem_around]
  simp only [Finset.mem_inter, Finset.mem_erase, Finset.mem_product, Finset.mem_Icc, grid]
  constructor
  · rintro ⟨h1, h2, h3, h4, h5, h6, h7, h8, h9⟩
    exact ⟨⟨h9, ⟨h1, h2⟩, h3, h4⟩, ⟨h5, by omega⟩, h7, by omega⟩
  · rintro ⟨⟨h9, ⟨h1, h2⟩, h3, h4⟩, ⟨h5, h6⟩, h7, h8⟩
    exact ⟨h1, h2, h3, h4, h5, by omega, h7, by omega, h9⟩

lemma around_nodup (h w : ℤ) (c : Cell) : (around h w c).Nodup := by
  apply List.Nodup.filter
  rw [List.nodup_flatMap]
  constructor
  · intro x hx
    refine List.Nodup.map ?_ ?_
    · intro a b hab
      exact ((Prod.mk.injEq x a x b).mp hab).2
    · refine List.nodup_cons.mpr ⟨?_, List.nodup_cons.mpr ⟨?_, List.nodup_singleton _⟩⟩
      · simp only [List.mem_cons, List.not_mem_nil, or_false]
        intro hc
        rcases hc with hc | hc <;> omega
      · simp only [List.mem_cons, List.not_mem_nil, or_false]
        intro hc
        omega
  · have hdisj : ∀ i1 i2 : ℤ, i1 ≠ i2 →
        List.Disjoint ([c.2 - 1, c.2, c.2 + 1].map (fun j => ((i1, j) : Cell)))
          ([c.2 - 1, c.2, c.2 + 1].map (fun j => ((i2, j) : Cell))) := by
      intro i1 i2 hne a ha1 ha2
      simp only [List.mem_map] at ha1 ha2
      obtain ⟨j1, _, rfl⟩ := ha1
      obtain ⟨j2, _, he⟩ := ha2
      exact hne (((Prod.mk.injEq i2 j2 i1 j1).mp he).1.symm)
    refine List.pairwise_cons.mpr ⟨?_, List.pairwise_cons.mpr ⟨?_, List.pairwise_singleton _ _⟩⟩
    · intro i hi
      rcases List.mem_cons.mp hi with rfl | hi
      · exact hdisj _ _ (by omega)
      · rcases List.mem_cons.mp hi with rfl | hi
        · exact hdisj _ _ (by omega)
        · exact absurd hi (List.not_mem_nil _)
    · intro i hi
      rcases List.mem_cons.mp hi with rfl | hi
      · exact hdisj _ _ (by omega)
      · exact absurd hi (List.not_mem_nil _)

lemma adjustFold_fst (s : AIState) :
    ∀ (l : List Cell) (acc : Finset Cell × ℤ),
      (adjustFold s l acc).1
        = acc.1 ∪ (l.toFinset.filter (fun n =>
            n ∉ s.moves_made ∧ n ∉ s.mines ∧ n ∉ s.safes))
  | [], acc => by simp [adjustFold]
  | n :: t, acc => by
    simp only [adjustFold, List.toFinset_cons, Finset.filter_insert]
    by_cases h1 : n ∈ s.mines
    · have h2 : ¬(n ∉ s.moves_made ∧ n ∉ s.mines ∧ n ∉ s.safes) := by
        intro h
        exact h.2.1 h1
      rw [if_pos h1, if_neg h2, adjustFold_fst s t _]
    · by_cases h2 : n ∉ s.moves_made ∧ n ∉ s.mines ∧ n ∉ s.safes
      · rw [if_neg h1, if_pos h2, if_pos h2, adjustFold_fst s t _,
          Finset.insert_union, Finset.union_insert]
      · rw [if_neg h1, if_neg h2, if_neg h2, adjustFold_fst s t _]

lemma adjustFold_snd (s : AIState) :
    ∀ (l : List Cell) (acc : Finset Cell × ℤ),
      (adjustFold s l acc).2
        = acc.2 - ((l.filter (fun n => decide (n ∈ s.mines))).length : ℤ)
  | [], acc => by simp [adjustFold]
  | n :: t, acc => by
    simp only [adjustFold]
    by_cases h1 : n ∈ s.mines
    · have hf : (n :: t).filter (fun m => decide (m ∈ s.mines))
          = n :: t.filter (fun m => decide (m ∈ s.mines)) := by
        simp [List.filter_cons, h1]
      rw [if_pos h1, adjustFold_snd s t _, hf, List.length_cons]
      push_cast
      ring
    · have hf : (n :: t).filter (fun m => decide (m ∈ s.mines))
          = t.filter (fun m => decide (m ∈ s.mines)) := by
        simp [List.filter_cons, h1]
      by_cases h2 : n ∉ s.moves_made ∧ n ∉ s.mines ∧ n ∉ s.safes
      · rw [if_neg h1, if_pos h2, adjustFold_snd s t _, hf]
      · rw [if_neg h1, if_neg h2, adjustFold_snd s t _, hf]

/-- Closed form of the knowledge base after the ingest phase of observe. -/
lemma ingest_knowledge (s : AIState) (c : Cell) (count : ℤ) :
    (s.ingest c count).knowledge
      = (s.knowledge.map (fun st => st.mark_safe c))
        ++ (if specUnknown s c ≠ ∅
            then [⟨specUnknown s c, count - ((specNeighbors s c ∩ s.mines).card : ℤ)⟩]
            else []) := by
  have hq : ∀ s2 : AIState, s2.mines = s.mines → s2.moves_made = insert c s.moves_made →
      s2.safes = insert c s.safes →
      (adjustFold s2 (around s.height s.width c) (∅, count)).1 = specUnknown s c := by
    intro s2 hm hv hs
    rw [adjustFold_fst, hm, hv, hs, Finset.empty_union, around_toFinset]
    unfold specUnknown specNeighbors
    apply Finset.filter_congr
    intro p hp
    have hpc : p ≠ c := by
      rw [Finset.mem_inter, Finset.mem_erase] at hp
      exact hp.1.1
    simp only [Finset.mem_insert, not_or, hpc, false_or]
    tauto
  have hk : ∀ s2 : AIState, s2.mines = s.mines →
      (adjustFold s2 (around s.height s.width c) (∅, count)).2
        = count - ((specNeighbors s c ∩ s.mines).card : ℤ) := by
    intro s2 hm
    rw [adjustFold_snd, hm]
    congr 1
    have h2 : ((around s.height s.width c).filter
        (fun n => decide (n ∈ s.mines))).Nodup :=
      (around_nodup s.height s.width c).filter _
    have h1 : ((around s.height s.width c).filter
          (fun n => decide (n ∈ s.mines))).toFinset
        = specNeighbors s c ∩ s.mines := by
      rw [List.toFinset_filter]
      simp only [decide_eq_true_eq]
      rw [around_toFinset, Finset.filter_mem_eq_inter]
      rfl
    rw [← h1, List.card_toFinset, h2.dedup]
  simp only [AIState.ingest, AIState.mark_safe]
  rw [hq ⟨s.height, s.width, insert c s.moves_made, s.mines, insert c s.safes,
      List.map (fun st => st.mark_safe c) s.knowledge⟩ rfl rfl rfl,
    hk ⟨s.height, s.width, insert c s.moves_made, s.mines, insert c s.safes,
      List.map (fun st => st.mark_safe c) s.knowledge⟩ rfl]
  by_cases h : specUnknown s c ≠ ∅
  · rw [if_pos h, if_pos h]
  · rw [if_neg h, if_neg h, List.append_nil]

/-- C7: on an observation, the new constraint cell set is exactly the set of
in-bounds neighbors of the cell (within one row and one column, excluding the
cell itself) lying in none of the hazard, safe or played sets, its count is
the reported count minus the number of neighbors already known as hazards,
and the constraint is appended to the knowledge base exactly when this cell
set is non-empty; all previous sentences are only updated by the safe-marking
of the observed cell. -/
theorem claim_C7 (s : AIState) (c : Cell) (count : ℤ) :
    (s.ingest c count).knowledge
      = (s.knowledge.map (fun st => st.mark_safe c))
        ++ (if specUnknown s c ≠ ∅
            then [⟨specUnknown s c, count - ((specNeighbors s c ∩ s.mines).card : ℤ)⟩]
            else []) :=
  ingest_knowledge s c count

/-- A sentence is true of the ground-truth hazard set `M` when its count is
the number of its cells lying in `M`. -/
abbrev SentTrue (M : Finset Cell) (st : Sentence) : Prop :=
  st.count = ((st.cells ∩ M).card : ℤ)

/-- A sentence is well placed in an engine state: true of the ground truth,
contained in the grid universe, and touching no already classified cell. -/
abbrev SentGood (U M mines safes : Finset Cell) (st : Sentence) : Prop :=
  SentTrue M st ∧ st.cells ⊆ U ∧ ∀ p ∈ st.cells, p ∉ mines ∧ p ∉ safes

/-- Consistency of an engine state with a ground-truth hazard set `M`: every
known hazard is a hazard, no known-safe cell is a hazard, every played cell
is known safe, and every sentence is well placed. -/
abbrev EngineInv (M : Finset Cell) (s : AIState) : Prop :=
  s.mines ⊆ M ∧ (∀ p ∈ s.safes, p ∉ M) ∧ s.moves_made ⊆ s.safes ∧
  ∀ st ∈ s.knowledge, SentGood (grid s.height s.width) M s.mines s.safes st

lemma mem_collect_aux (f : Sentence → Finset Cell) :
    ∀ (l : List Sentence) (init : Finset Cell) (p : Cell),
      p ∈ l.foldl (fun acc st => acc ∪ f st) init ↔ p ∈ init ∨ ∃ st ∈ l, p ∈ f st
  | [], init, p => by simp
  | b :: t, init, p => by
    rw [List.foldl_cons, mem_collect_aux f t _ p, Finset.mem_union]
    simp only [List.mem_cons]
    constructor
    · rintro ((h | h) | ⟨st, hst, hp⟩)
      · exact Or.inl h
      · exact Or.inr ⟨b, Or.inl rfl, h⟩
      · exact Or.inr ⟨st, Or.inr hst, hp⟩
    · rintro (h | ⟨st, (rfl | hst), hp⟩)
      · exact Or.inl (Or.inl h)
      · exact Or.inl (Or.inr hp)
      · exact Or.inr ⟨st, hst, hp⟩

lemma mem_collectMines {kb : List Sentence} {p : Cell} :
    p ∈ collectMines kb ↔ ∃ st ∈ kb, p ∈ st.known_mines := by
  unfold collectMines
  rw [mem_collect_aux]
  simp

lemma mem_collectSafes {kb : List Sentence} {p : Cell} :
    p ∈ collectSafes kb ↔ ∃ st ∈ kb, p ∈ st.known_safes := by
  unfold collectSafes
  rw [mem_collect_aux]
  simp

lemma known_mines_sub {M : Finset Cell} {st : Sentence} (h : SentTrue M st) :
    st.known_mines ⊆ M := by
  unfold Sentence.known_mines
  split_ifs with hc
  · have hcard : (st.cells ∩ M).card = st.cells.card := by
      have h2 : ((st.cells ∩ M).card : ℤ) = (st.cells.card : ℤ) := by
        rw [← h, hc]
      exact_mod_cast h2
    have he : st.cells ∩ M = st.cells :=
      Finset.eq_of_subset_of_card_le Finset.inter_subset_left (le_of_eq hcard.symm)
    intro p hp
    have : p ∈ st.cells ∩ M := he.symm ▸ hp
    exact (Finset.mem_inter.mp this).2
  · simp

lemma known_safes_disj {M : Finset Cell} {st : Sentence} (h : SentTrue M st) :
    ∀ p ∈ st.known_safes, p ∉ M := by
  unfold Sentence.known_safes
  split_ifs with hc
  · have hcard : (st.cells ∩ M).card = 0 := by
      have h2 : ((st.cells ∩ M).card : ℤ) = 0 := by rw [← h, hc]
      exact_mod_cast h2
    have he : st.cells ∩ M = ∅ := Finset.card_eq_zero.mp hcard
    intro p hp hpM
    exact Finset.eq_empty_iff_forall_not_mem.mp he p (Finset.mem_inter.mpr ⟨hp, hpM⟩)
  · simp

lemma collectMines_sub {M : Finset Cell} {kb : List Sentence}
    (h : ∀ st ∈ kb, SentTrue M st) : collectMines kb ⊆ M := by
  intro p hp
  obtain ⟨st, hst, hpk⟩ := mem_collectMines.mp hp
  exact known_mines_sub (h st hst) hpk

lemma collectSafes_disj {M : Finset Cell} {kb : List Sentence}
    (h : ∀ st ∈ kb, SentTrue M st) : ∀ p ∈ collectSafes kb, p ∉ M := by
  intro p hp
  obtain ⟨st, hst, hpk⟩ := mem_collectSafes.mp hp
  exact known_safes_disj (h st hst) p hpk

lemma sentGood_markMine {U M mines safes : Finset Cell} {st : Sentence}
    (hg : SentGood U M mines safes st) {adjM : Finset Cell} (hadj : adjM ⊆ M) :
    SentGood U M (mines ∪ adjM) safes
      ⟨st.cells \ (adjM \ mines),
        st.count - ((st.cells ∩ (adjM \ mines)).card : ℤ)⟩ := by
  obtain ⟨ht, hu, hd⟩ := hg
  have hsub : st.cells ∩ (adjM \ mines) ⊆ st.cells ∩ M := by
    intro p hp
    rw [Finset.mem_inter] at hp ⊢
    exact ⟨hp.1, hadj (Finset.mem_sdiff.mp hp.2).1⟩
  refine ⟨?_, ?_, ?_⟩
  · unfold SentTrue at ht ⊢
    have he : (st.cells \ (adjM \ mines)) ∩ M
        = (st.cells ∩ M) \ (st.cells ∩ (adjM \ mines)) := by
      ext p
      simp only [Finset.mem_sdiff, Finset.mem_inter]
      tauto
    rw [he, Finset.card_sdiff hsub, Nat.cast_sub (Finset.card_le_card hsub), ht]
  · exact fun p hp => hu (Finset.mem_sdiff.mp hp).1
  · intro p hp
    rw [Finset.mem_sdiff] at hp
    obtain ⟨hpc, hpM'⟩ := hp
    have hpd := hd p hpc
    refine ⟨?_, hpd.2⟩
    rw [Finset.mem_union]
    rintro (hm | ha)
    · exact hpd.1 hm
    · exact hpM' (Finset.mem_sdiff.mpr ⟨ha, hpd.1⟩)

lemma sentGood_markSafe {U M mines safes : Finset Cell} {st : Sentence}
    (hg : SentGood U M mines safes st) {adjS : Finset Cell} (hadj : ∀ p ∈ adjS, p ∉ M) :
    SentGood U M mines (safes ∪ adjS) ⟨st.cells \ (adjS \ safes), st.count⟩ := by
  obtain ⟨ht, hu, hd⟩ := hg
  refine ⟨?_, ?_, ?_⟩
  · unfold SentTrue at ht ⊢
    have he : (st.cells \ (adjS \ safes)) ∩ M = st.cells ∩ M := by
      ext p
      simp only [Finset.mem_sdiff, Finset.mem_inter]
      constructor
      · tauto
      · rintro ⟨hpc, hpM⟩
        refine ⟨⟨hpc, fun hp => ?_⟩, hpM⟩
        exact hadj p hp.1 hpM
    rw [he]
    exact ht
  · exact fun p hp => hu (Finset.mem_sdiff.mp hp).1
  · intro p hp
    rw [Finset.mem_sdiff] at hp
    obtain ⟨hpc, hpS'⟩ := hp
    have hpd := hd p hpc
    refine ⟨hpd.1, ?_⟩
    rw [Finset.mem_union]
    rintro (hs | ha)
    · exact hpd.2 hs
    · exact hpS' (Finset.mem_sdiff.mpr ⟨ha, hpd.2⟩)

lemma sentGood_derived {U M mines safes : Finset Cell} {A B : Sentence}
    (hA : SentGood U M mines safes A) (hB : SentGood U M mines safes B)
    (hsub : A.cells ⊆ B.cells) :
    SentGood U M mines safes ⟨B.cells \ A.cells, B.count - A.count⟩ := by
  obtain ⟨htA, _, _⟩ := hA
  obtain ⟨htB, huB, hdB⟩ := hB
  have hsub2 : A.cells ∩ M ⊆ B.cells ∩ M := by
    intro p hp
    rw [Finset.mem_inter] at hp ⊢
    exact ⟨hsub hp.1, hp.2⟩
  refine ⟨?_, ?_, ?_⟩
  · unfold SentTrue at htA htB ⊢
    have he : (B.cells \ A.cells) ∩ M = (B.cells ∩ M) \ (A.cells ∩ M) := by
      ext p
      simp only [Finset.mem_sdiff, Finset.mem_inter]
      tauto
    rw [he, Finset.card_sdiff hsub2, Nat.cast_sub (Finset.card_le_card hsub2), htA, htB]
  · exact fun p hp => huB (Finset.mem_sdiff.mp hp).1
  · exact fun p hp => hdB p (Finset.mem_sdiff.mp hp).1

lemma derived_nonempty {M : Finset Cell} {A B : Sentence}
    (hA : SentTrue M A) (hB : SentTrue M B) (hne : A ≠ B) (hsub : A.cells ⊆ B.cells) :
    B.cells \ A.cells ≠ ∅ := by
  intro h
  have he : A.cells = B.cells :=
    Finset.Subset.antisymm hsub (Finset.sdiff_eq_empty_iff_subset.mp h)
  apply hne
  apply Sentence.eqOf he
  unfold SentTrue at hA hB
  rw [hA, hB, he]

lemma passKb_good {M : Finset Cell} {s : AIState}
    (hkb : ∀ st ∈ s.knowledge, SentGood (grid s.height s.width) M s.mines s.safes st) :
    (passMines s ⊆ M) ∧ (∀ p ∈ passSafes s, p ∉ M) ∧
    ∀ st ∈ passKb s,
      SentGood (grid s.height s.width) M (s.mines ∪ passMines s)
        (s.safes ∪ passSafes s) st := by
  have hkb1 : ∀ st ∈ clean s.knowledge,
      SentGood (grid s.height s.width) M s.mines s.safes st :=
    fun st hst => hkb st (List.mem_filter.mp hst).1
  have hadjM : passMines s ⊆ M :=
    collectMines_sub (fun st hst => (hkb1 st hst).1)
  have hadjS : ∀ p ∈ passSafes s, p ∉ M :=
    collectSafes_disj (fun st hst => (hkb1 st hst).1)
  refine ⟨hadjM, hadjS, ?_⟩
  intro st hst
  unfold passKb markSafesKb markMinesKb at hst
  rw [List.mem_map] at hst
  obtain ⟨st2, hst2, rfl⟩ := hst
  rw [List.mem_map] at hst2
  obtain ⟨st1, hst1, rfl⟩ := hst2
  exact sentGood_markSafe (sentGood_markMine (hkb1 st1 hst1) hadjM) hadjS

lemma inv_pass {M : Finset Cell} {s : AIState} (h : EngineInv M s) :
    EngineInv M (pass1 s).1 := by
  obtain ⟨hm, hs, hv, hkb⟩ := h
  obtain ⟨hadjM, hadjS, hkb3⟩ := passKb_good hkb
  have hnk : ∀ ns ∈ deriveStep (passKb s),
      SentGood (grid s.height s.width) M (s.mines ∪ passMines s)
        (s.safes ∪ passSafes s) ns := by
    intro ns hns
    rw [deriveStep_mem_pair] at hns
    obtain ⟨-, A, hA, B, hB, -, -, -, hsub, rfl⟩ := hns
    exact sentGood_derived (hkb3 A hA) (hkb3 B hB) hsub
  refine ⟨Finset.union_subset hm hadjM, ?_, hv.trans Finset.subset_union_left, ?_⟩
  · intro p hp
    rcases Finset.mem_union.mp hp with hp | hp
    · exact hs p hp
    · exact hadjS p hp
  · intro st hst
    have hmem : st ∈ passKb s ∨ st ∈ deriveStep (passKb s) := by
      have he : (pass1 s).1.knowledge
          = if deriveStep (passKb s) = [] then passKb s
            else passKb s ++ deriveStep (passKb s) := rfl
      rw [he] at hst
      by_cases hE : deriveStep (passKb s) = []
      · rw [if_pos hE] at hst
        exact Or.inl hst
      · rw [if_neg hE] at hst
        exact List.mem_append.mp hst
    rcases hmem with hmem | hmem
    · exact hkb3 st hmem
    · exact hnk st hmem

lemma inv_runFix {M : Finset Cell} :
    ∀ {n : ℕ} {s s' : AIState}, EngineInv M s → runFix n s = some s' → EngineInv M s'
  | 0, s, s', _, h => by simp [runFix] at h
  | n + 1, s, s', hinv, h => by
    by_cases hb : (pass1 s).2
    · rw [runFix_succ_true (Prod.ext rfl hb) n] at h
      exact inv_runFix (inv_pass hinv) h
    · rw [runFix_succ_false (Prod.ext rfl (Bool.not_eq_true _ ▸ hb)) n] at h
      rw [Option.some.injEq] at h
      exact h ▸ inv_pass hinv

lemma sentGood_markSafeCell {U M mines safes : Finset Cell} {st : Sentence} {c : Cell}
    (hg : SentGood U M mines safes st) (hc : c ∉ M) :
    SentGood U M mines (insert c safes) (st.mark_safe c) := by
  obtain ⟨ht, hu, hd⟩ := hg
  unfold Sentence.mark_safe
  split_ifs with hcc
  · refine ⟨?_, ?_, ?_⟩
    · unfold SentTrue at ht ⊢
      have he : (st.cells.erase c) ∩ M = st.cells ∩ M := by
        ext p
        simp only [Finset.mem_inter, Finset.mem_erase]
        constructor
        · tauto
        · rintro ⟨h1, h2⟩
          exact ⟨⟨fun hpc => hc (hpc ▸ h2), h1⟩, h2⟩
      rw [he]
      exact ht
    · exact fun p hp => hu (Finset.mem_erase.mp hp).2
    · intro p hp
      rw [Finset.mem_erase] at hp
      have hpd := hd p hp.2
      refine ⟨hpd.1, ?_⟩
      rw [Finset.mem_insert]
      rintro (rfl | hps)
      · exact hp.1 rfl
      · exact hpd.2 hps
  · refine ⟨ht, hu, ?_⟩
    intro p hp
    have hpd := hd p hp
    refine ⟨hpd.1, ?_⟩
    rw [Finset.mem_insert]
    rintro (rfl | hps)
    · exact hcc hp
    · exact hpd.2 hps

lemma inv_ingest {M : Finset Cell} {s : AIState} {c : Cell} {count : ℤ}
    (h : EngineInv M s) (hc : c ∉ M)
    (hcount : count = ((specNeighbors s c ∩ M).card : ℤ)) :
    EngineInv M (s.ingest c count) := by
  obtain ⟨hm, hs, hv, hkb⟩ := h
  have hmines : (s.ingest c count).mines = s.mines := rfl
  have hsafes : (s.ingest c count).safes = insert c s.safes := rfl
  have hmoves : (s.ingest c count).moves_made = insert c s.moves_made := rfl
  refine ⟨?_, ?_, ?_, ?_⟩
  · rw [hmines]
    exact hm
  · rw [hsafes]
    intro p hp
    rcases Finset.mem_insert.mp hp with rfl | hp
    · exact hc
    · exact hs p hp
  · rw [hmoves, hsafes]
    exact Finset.insert_subset_insert c hv
  · intro st hst
    rw [show (s.ingest c count).knowledge = _ from ingest_knowledge s c count] at hst
    rw [hmines, hsafes]
    rcases List.mem_append.mp hst with hst | hst
    · rw [List.mem_map] at hst
      obtain ⟨st0, hst0, rfl⟩ := hst
      exact sentGood_markSafeCell (hkb st0 hst0) hc
    · by_cases hne : specUnknown s c ≠ ∅
      · rw [if_pos hne, List.mem_singleton] at hst
        subst hst
        have hNgrid : specNeighbors s c ⊆ grid s.height s.width := by
          unfold specNeighbors
          exact Finset.inter_subset_right
      -- description of the appended sentence
        have hAmem : ∀ p, p ∈ specUnknown s c ↔
            p ∈ specNeighbors s c ∧ p ∉ s.mines ∧ p ∉ s.safes ∧ p ∉ s.moves_made := by
          intro p
          unfold specUnknown
          rw [Finset.mem_filter]
        have hpc : ∀ p ∈ specNeighbors s c, p ≠ c := by
          intro p hp
          unfold specNeighbors at hp
          exact (Finset.mem_erase.mp (Finset.mem_inter.mp hp).1).1
        refine ⟨?_, ?_, ?_⟩
        · unfold SentTrue
          have he : specUnknown s c ∩ M = (specNeighbors s c ∩ M) \ (specNeighbors s c ∩ s.mines) := by
            ext p
            simp only [Finset.mem_inter, Finset.mem_sdiff, hAmem, not_and]
            constructor
            · rintro ⟨⟨hN, hm2, hs2, hv2⟩, hM⟩
              exact ⟨⟨hN, hM⟩, fun _ => hm2⟩
            · rintro ⟨⟨hN, hM⟩, hm2⟩
              have hps : p ∉ s.safes := fun hps => hs p hps hM
              exact ⟨⟨hN, hm2 hN, hps, fun hpv => hps (hv hpv)⟩, hM⟩
          have hsub : specNeighbors s c ∩ s.mines ⊆ specNeighbors s c ∩ M := by
            intro p hp
            rw [Finset.mem_inter] at hp ⊢
            exact ⟨hp.1, hm hp.2⟩
          show count - ((specNeighbors s c ∩ s.mines).card : ℤ) = _
          rw [he, Finset.card_sdiff hsub, Nat.cast_sub (Finset.card_le_card hsub), hcount]
        · intro p hp
          exact hNgrid ((hAmem p).mp hp).1
        · intro p hp
          rw [hAmem] at hp
          obtain ⟨hN, hm2, hs2, _⟩ := hp
          refine ⟨hm2, ?_⟩
          rw [Finset.mem_insert]
          rintro (rfl | hps)
          · exact hpc p hN rfl
          · exact hs2 hps
      · rw [if_neg hne] at hst
        exact absurd hst (List.not_mem_nil st)

/-- C3: after an observe call returns, under the assumption that the engine
state and the reported count are consistent with a ground-truth hazard set
(the count is the true number of hazards among the neighbors and the observed
cell is not a hazard), no constraint of the knowledge base contains a cell of
the hazard, safe or played sets, the hazard and safe sets are disjoint, and
the played set is contained in the safe set. -/
theorem claim_C3 (s s' : AIState) (M : Finset Cell) (c : Cell) (count : ℤ) (fuel : ℕ)
    (hinv : EngineInv M s) (hc : c ∉ M)
    (hcount : count = ((specNeighbors s c ∩ M).card : ℤ))
    (hrun : AIState.add_knowledge fuel s c count = some s') :
    (∀ st ∈ s'.knowledge, ∀ p ∈ st.cells, p ∉ s'.mines ∧ p ∉ s'.safes ∧ p ∉ s'.moves_made) ∧
    (∀ p ∈ s'.mines, p ∉ s'.safes) ∧ s'.moves_made ⊆ s'.safes := by
  have h1 : EngineInv M (s.ingest c count) := inv_ingest hinv hc hcount
  rw [add_knowledge_def] at hrun
  have h2 : EngineInv M s' := inv_runFix h1 hrun
  obtain ⟨hm, hs, hv, hkb⟩ := h2
  refine ⟨?_, ?_, hv⟩
  · intro st hst p hp
    have hd := (hkb st hst).2.2 p hp
    exact ⟨hd.1, hd.2, fun hmv => hd.2 (hv hmv)⟩
  · intro p hp hps
    exact hs p hps (hm hp)

theorem claim_C3_witness :
    EngineInv {(0, 0)} ⟨1, 3, ∅, ∅, ∅, []⟩ ∧ (0, 2) ∉ ({(0, 0)} : Finset Cell) ∧
    (0 : ℤ) = ((specNeighbors ⟨1, 3, ∅, ∅, ∅, []⟩ (0, 2) ∩ {(0, 0)}).card : ℤ) ∧
    AIState.add_knowledge 2 ⟨1, 3, ∅, ∅, ∅, []⟩ (0, 2) 0
      = some ⟨1, 3, {(0, 2)}, ∅, {(0, 1), (0, 2)}, []⟩ ∧
    ((∀ st ∈ (⟨1, 3, {(0, 2)}, ∅, {(0, 1), (0, 2)}, []⟩ : AIState).knowledge,
        ∀ p ∈ st.cells, p ∉ (⟨1, 3, {(0, 2)}, ∅, {(0, 1), (0, 2)}, []⟩ : AIState).mines ∧
          p ∉ (⟨1, 3, {(0, 2)}, ∅, {(0, 1), (0, 2)}, []⟩ : AIState).safes ∧
          p ∉ (⟨1, 3, {(0, 2)}, ∅, {(0, 1), (0, 2)}, []⟩ : AIState).moves_made) ∧
      (∀ p ∈ (⟨1, 3, {(0, 2)}, ∅, {(0, 1), (0, 2)}, []⟩ : AIState).mines,
        p ∉ (⟨1, 3, {(0, 2)}, ∅, {(0, 1), (0, 2)}, []⟩ : AIState).safes) ∧
      (⟨1, 3, {(0, 2)}, ∅, {(0, 1), (0, 2)}, []⟩ : AIState).moves_made
        ⊆ (⟨1, 3, {(0, 2)}, ∅, {(0, 1), (0, 2)}, []⟩ : AIState).safes) := by
  have g0 : (⟨1, 3, ∅, ∅, ∅, []⟩ : AIState).ingest (0, 2) 0
      = ⟨1, 3, {(0, 2)}, ∅, {(0, 2)}, [⟨{(0, 1)}, 0⟩]⟩ := stEq.eq (by decide)
  have g1 : pass1 ⟨1, 3, {(0, 2)}, ∅, {(0, 2)}, [⟨{(0, 1)}, 0⟩]⟩
      = (⟨1, 3, {(0, 2)}, ∅, {(0, 1), (0, 2)}, [⟨∅, 0⟩]⟩, true) := passEq (by decide) (by decide)
  have g2 : pass1 ⟨1, 3, {(0, 2)}, ∅, {(0, 1), (0, 2)}, [⟨∅, 0⟩]⟩
      = (⟨1, 3, {(0, 2)}, ∅, {(0, 1), (0, 2)}, []⟩, false) := passEq (by decide) (by decide)
  have hrun : AIState.add_knowledge 2 ⟨1, 3, ∅, ∅, ∅, []⟩ (0, 2) 0
      = some ⟨1, 3, {(0, 2)}, ∅, {(0, 1), (0, 2)}, []⟩ := by
    rw [add_knowledge_def, g0, runFix_succ_true g1 1, runFix_succ_false g2 0]
  exact ⟨by decide, by decide, by decide, hrun,
    claim_C3 ⟨1, 3, ∅, ∅, ∅, []⟩ ⟨1, 3, {(0, 2)}, ∅, {(0, 1), (0, 2)}, []⟩
      {(0, 0)} (0, 2) 0 2 (by decide) (by decide) (by decide) hrun⟩

lemma known_mines_subset_cells {st : Sentence} : st.known_mines ⊆ st.cells := by
  unfold Sentence.known_mines
  split_ifs
  · exact Finset.Subset.refl _
  · simp

lemma known_safes_subset_cells {st : Sentence} : st.known_safes ⊆ st.cells := by
  unfold Sentence.known_safes
  split_ifs
  · exact Finset.Subset.refl _
  · simp

lemma kb_card_bound {U M : Finset Cell} {kb : List Sentence}
    (h : ∀ st ∈ kb, SentTrue M st ∧ st.cells ⊆ U) :
    kb.toFinset.card ≤ 2 ^ U.card := by
  have hle : kb.toFinset.card ≤ U.powerset.card := by
    apply Finset.card_le_card_of_injOn (fun st => st.cells)
    · intro st hst
      rw [Finset.mem_powerset]
      exact (h st (List.mem_toFinset.mp hst)).2
    · intro a ha b hb he
      have ha2 := (h a (List.mem_toFinset.mp (Finset.mem_coe.mp ha))).1
      have hb2 := (h b (List.mem_toFinset.mp (Finset.mem_coe.mp hb))).1
      have he2 : a.cells = b.cells := he
      refine Sentence.eqOf he2 ?_
      rw [ha2, hb2, he2]
  simpa [Finset.card_powerset] using hle

lemma flag_cases {M : Finset Cell} {s : AIState} (h : EngineInv M s)
    (hfl : (pass1 s).2 = true) :
    (passMines s \ s.mines) ≠ ∅ ∨ (passSafes s \ s.safes) ≠ ∅ ∨
      deriveStep (passKb s) ≠ [] := by
  obtain ⟨hm, hs, hv, hkb⟩ := h
  have hkb1 : ∀ st ∈ clean s.knowledge,
      SentGood (grid s.height s.width) M s.mines s.safes st :=
    fun st hst => hkb st (List.mem_filter.mp hst).1
  have hfl2 : ((clean s.knowledge).any (fun st => decide (st.known_mines ≠ ∅)) = true) ∨
      ((clean s.knowledge).any (fun st => decide (st.known_safes ≠ ∅)) = true) ∨
      (decide ((passMines s \ s.mines) ≠ ∅) = true) ∨
      (decide ((passSafes s \ s.safes) ≠ ∅) = true) ∨
      (decide (deriveStep (passKb s) ≠ []) = true) := by
    have he : (pass1 s).2
        = ((clean s.knowledge).any (fun st => decide (st.known_mines ≠ ∅))
            || (clean s.knowledge).any (fun st => decide (st.known_safes ≠ ∅))
            || decide ((passMines s \ s.mines) ≠ ∅)
            || decide ((passSafes s \ s.safes) ≠ ∅)
            || decide (deriveStep (passKb s) ≠ [])) := rfl
    rw [he] at hfl
    simpa [Bool.or_eq_true, or_assoc] using hfl
  rcases hfl2 with h1 | h1 | h1 | h1 | h1
  · left
    rw [List.any_eq_true] at h1
    obtain ⟨st, hst, hd⟩ := h1
    rw [decide_eq_true_eq] at hd
    obtain ⟨p, hp⟩ := Finset.nonempty_iff_ne_empty.mpr hd
    have hpm : p ∈ passMines s := mem_collectMines.mpr ⟨st, hst, hp⟩
    have hpnm : p ∉ s.mines :=
      ((hkb1 st hst).2.2 p (known_mines_subset_cells hp)).1
    exact Finset.ne_empty_of_mem (Finset.mem_sdiff.mpr ⟨hpm, hpnm⟩)
  · right; left
    rw [List.any_eq_true] at h1
    obtain ⟨st, hst, hd⟩ := h1
    rw [decide_eq_true_eq] at hd
    obtain ⟨p, hp⟩ := Finset.nonempty_iff_ne_empty.mpr hd
    have hpm : p ∈ passSafes s := mem_collectSafes.mpr ⟨st, hst, hp⟩
    have hpns : p ∉ s.safes :=
      ((hkb1 st hst).2.2 p (known_safes_subset_cells hp)).2
    exact Finset.ne_empty_of_mem (Finset.mem_sdiff.mpr ⟨hpm, hpns⟩)
  · exact Or.inl (decide_eq_true_eq.mp h1)
  · exact Or.inr (Or.inl (decide_eq_true_eq.mp h1))
  · exact Or.inr (Or.inr (decide_eq_true_eq.mp h1))

/-- The termination measure of the propagation loop: newly classified cells
shrink the first summand, structurally new sentences shrink the second. -/
def meas (s : AIState) : ℕ :=
  ((grid s.height s.width \ s.mines).card + (grid s.height s.width \ s.safes).card)
      * (2 ^ (grid s.height s.width).card + 1)
    + (2 ^ (grid s.height s.width).card - (clean s.knowledge).toFinset.card)

lemma meas_arith1 {a1 a2 b1 b2 t m2 n2 : ℕ} (h1 : b1 < a1) (h2 : b2 ≤ a2) (h3 : n2 ≤ t) :
    (b1 + b2) * (t + 1) + n2 < (a1 + a2) * (t + 1) + m2 := by
  have hlt : (b1 + b2) * (t + 1) + n2 < (b1 + b2 + 1) * (t + 1) := by
    rw [Nat.succ_mul]
    omega
  have hle : (b1 + b2 + 1) * (t + 1) ≤ (a1 + a2) * (t + 1) :=
    Nat.mul_le_mul_right _ (by omega)
  omega

lemma meas_dec {M : Finset Cell} {s : AIState} (h : EngineInv M s)
    (hfl : (pass1 s).2 = true) : meas (pass1 s).1 < meas s := by
  have hkb1 : ∀ st ∈ clean s.knowledge,
      SentGood (grid s.height s.width) M s.mines s.safes st :=
    fun st hst => h.2.2.2 st (List.mem_filter.mp hst).1
  have hmeq0 : meas s
      = ((grid s.height s.width \ s.mines).card + (grid s.height s.width \ s.safes).card)
          * (2 ^ (grid s.height s.width).card + 1)
        + (2 ^ (grid s.height s.width).card - (clean s.knowledge).toFinset.card) := rfl
  have hmeq : meas (pass1 s).1
      = ((grid s.height s.width \ (s.mines ∪ passMines s)).card
          + (grid s.height s.width \ (s.safes ∪ passSafes s)).card)
          * (2 ^ (grid s.height s.width).card + 1)
        + (2 ^ (grid s.height s.width).card
            - (clean (pass1 s).1.knowledge).toFinset.card) := rfl
  have hbound : (clean (pass1 s).1.knowledge).toFinset.card
      ≤ 2 ^ (grid s.height s.width).card := by
    apply kb_card_bound (M := M)
    intro st hst
    have hg := (inv_pass h).2.2.2 st (List.mem_filter.mp hst).1
    exact ⟨hg.1, hg.2.1⟩
  have ha1le : (grid s.height s.width \ (s.mines ∪ passMines s)).card
      ≤ (grid s.height s.width \ s.mines).card :=
    Finset.card_le_card
      (Finset.sdiff_subset_sdiff (Finset.Subset.refl _) Finset.subset_union_left)
  have ha2le : (grid s.height s.width \ (s.safes ∪ passSafes s)).card
      ≤ (grid s.height s.width \ s.safes).card :=
    Finset.card_le_card
      (Finset.sdiff_subset_sdiff (Finset.Subset.refl _) Finset.subset_union_left)
  by_cases hM : (passMines s \ s.mines) ≠ ∅
  · obtain ⟨p, hp⟩ := Finset.nonempty_iff_ne_empty.mpr hM
    rw [Finset.mem_sdiff] at hp
    have hpU : p ∈ grid s.height s.width := by
      obtain ⟨st, hst, hpk⟩ := mem_collectMines.mp hp.1
      exact (hkb1 st hst).2.1 (known_mines_subset_cells hpk)
    have ha1lt : (grid s.height s.width \ (s.mines ∪ passMines s)).card
        < (grid s.height s.width \ s.mines).card := by
      apply Finset.card_lt_card
      rw [Finset.ssubset_iff_of_subset
        (Finset.sdiff_subset_sdiff (Finset.Subset.refl _) Finset.subset_union_left)]
      refine ⟨p, Finset.mem_sdiff.mpr ⟨hpU, hp.2⟩, fun hmem => ?_⟩
      exact (Finset.mem_sdiff.mp hmem).2 (Finset.mem_union_right _ hp.1)
    rw [hmeq, hmeq0]
    exact meas_arith1 ha1lt ha2le (Nat.sub_le _ _)
  · by_cases hS : (passSafes s \ s.safes) ≠ ∅
    · obtain ⟨p, hp⟩ := Finset.nonempty_iff_ne_empty.mpr hS
      rw [Finset.mem_sdiff] at hp
      have hpU : p ∈ grid s.height s.width := by
        obtain ⟨st, hst, hpk⟩ := mem_collectSafes.mp hp.1
        exact (hkb1 st hst).2.1 (known_safes_subset_cells hpk)
      have ha2lt : (grid s.height s.width \ (s.safes ∪ passSafes s)).card
          < (grid s.height s.width \ s.safes).card := by
        apply Finset.card_lt_card
        rw [Finset.ssubset_iff_of_subset
          (Finset.sdiff_subset_sdiff (Finset.Subset.refl _) Finset.subset_union_left)]
        refine ⟨p, Finset.mem_sdiff.mpr ⟨hpU, hp.2⟩, fun hmem => ?_⟩
        exact (Finset.mem_sdiff.mp hmem).2 (Finset.mem_union_right _ hp.1)
      rw [hmeq, hmeq0]
      have harith : ∀ {a1 a2 b1 b2 t m2 n2 : ℕ}, b1 ≤ a1 → b2 < a2 → n2 ≤ t →
          (b1 + b2) * (t + 1) + n2 < (a1 + a2) * (t + 1) + m2 := by
        intro a1 a2 b1 b2 t m2 n2 h1 h2 h3
        have hlt : (b1 + b2) * (t + 1) + n2 < (b1 + b2 + 1) * (t + 1) := by
          rw [Nat.succ_mul]
          omega
        have hle : (b1 + b2 + 1) * (t + 1) ≤ (a1 + a2) * (t + 1) :=
          Nat.mul_le_mul_right _ (by omega)
        omega
      exact harith ha1le ha2lt (Nat.sub_le _ _)
    · rw [not_not] at hM hS
      have hE : deriveStep (passKb s) ≠ [] := by
        rcases flag_cases h hfl with h1 | h1 | h1
        · exact absurd hM h1
        · exact absurd hS h1
        · exact h1
      have hmm : s.mines ∪ passMines s = s.mines :=
        Finset.union_eq_left.mpr (Finset.sdiff_eq_empty_iff_subset.mp hM)
      have hss : s.safes ∪ passSafes s = s.safes :=
        Finset.union_eq_left.mpr (Finset.sdiff_eq_empty_iff_subset.mp hS)
      have hkbeq : passKb s = clean s.knowledge := by
        unfold passKb
        rw [hM, hS, markMinesKb_empty, markSafesKb_empty]
      have hknow : (pass1 s).1.knowledge
          = clean s.knowledge ++ deriveStep (passKb s) := by
        have he : (pass1 s).1.knowledge
            = if deriveStep (passKb s) = [] then passKb s
              else passKb s ++ deriveStep (passKb s) := rfl
        rw [he, if_neg hE, hkbeq]
      have hnkne : ∀ ns ∈ deriveStep (passKb s), ns.cells ≠ ∅ := by
        intro ns hns
        rw [deriveStep_mem_pair] at hns
        obtain ⟨-, A, hA, B, hB, hne, -, -, hsub, rfl⟩ := hns
        rw [hkbeq] at hA hB
        exact derived_nonempty (hkb1 A hA).1 (hkb1 B hB).1 hne hsub
      have hcleanapp : clean ((clean s.knowledge) ++ deriveStep (passKb s))
          = clean s.knowledge ++ deriveStep (passKb s) := by
        unfold clean
        rw [List.filter_append]
        have h1 : (clean s.knowledge).filter (fun st => decide (st.cells ≠ ∅))
            = clean s.knowledge := clean_idem s.knowledge
        have h2 : (deriveStep (passKb s)).filter (fun st => decide (st.cells ≠ ∅))
            = deriveStep (passKb s) := by
          rw [List.filter_eq_self]
          intro ns hns
          rw [decide_eq_true_eq]
          exact hnkne ns hns
        unfold clean at h1
        rw [h1, h2]
      obtain ⟨ns0, hns0⟩ := List.exists_mem_of_ne_nil _ hE
      have hns0nk : ns0 ∉ clean s.knowledge := by
        have := (deriveStep_mem_pair (passKb s) ns0).mp hns0
        rw [hkbeq] at this
        exact this.1
      have hdlt : (clean s.knowledge).toFinset.card
          < (clean s.knowledge ++ deriveStep (passKb s)).toFinset.card := by
        rw [List.toFinset_append]
        have hsub2 : insert ns0 (clean s.knowledge).toFinset
            ⊆ (clean s.knowledge).toFinset ∪ (deriveStep (passKb s)).toFinset := by
          intro x hx
          rcases Finset.mem_insert.mp hx with rfl | hx
          · exact Finset.mem_union_right _ (List.mem_toFinset.mpr hns0)
          · exact Finset.mem_union_left _ hx
        calc (clean s.knowledge).toFinset.card
            < (insert ns0 (clean s.knowledge).toFinset).card := by
              rw [Finset.card_insert_of_not_mem (fun hx => hns0nk (List.mem_toFinset.mp hx))]
              omega
          _ ≤ _ := Finset.card_le_card hsub2
      have hbound2 : (clean s.knowledge ++ deriveStep (passKb s)).toFinset.card
          ≤ 2 ^ (grid s.height s.width).card := by
        rw [← hcleanapp, ← hknow]
        exact hbound
      rw [hmeq, hmeq0, hmm, hss, hknow, hcleanapp]
      have hfin : 2 ^ (grid s.height s.width).card
            - (clean s.knowledge ++ deriveStep (passKb s)).toFinset.card
          < 2 ^ (grid s.height s.width).card - (clean s.knowledge).toFinset.card := by
        omega
      omega

lemma runFix_term {M : Finset Cell} (k : ℕ) :
    ∀ (s : AIState), EngineInv M s → meas s ≤ k → ∃ n s', runFix n s = some s' := by
  induction k with
  | zero =>
    intro s hinv hk
    by_cases hb : (pass1 s).2
    · exact absurd (meas_dec hinv hb) (by omega)
    · exact ⟨1, (pass1 s).1,
        runFix_succ_false (Prod.ext rfl (Bool.not_eq_true _ ▸ hb)) 0⟩
  | succ k ih =>
    intro s hinv hk
    by_cases hb : (pass1 s).2
    · have hdec := meas_dec hinv hb
      obtain ⟨n, s', hn⟩ := ih (pass1 s).1 (inv_pass hinv) (by omega)
      exact ⟨n + 1, s', by rw [runFix_succ_true (Prod.ext rfl hb) n]; exact hn⟩
    · exact ⟨1, (pass1 s).1,
        runFix_succ_false (Prod.ext rfl (Bool.not_eq_true _ ▸ hb)) 0⟩

/-- C4 (amended): for every engine state consistent with some ground-truth
hazard set and every observe call honest with respect to that ground truth,
the propagation fixpoint loop terminates: some number of passes reaches a
pass producing no change, so observe returns.  Without the consistency
assumption the loop can run forever, see the counterexample. -/
theorem claim_C4 (s : AIState) (M : Finset Cell) (c : Cell) (count : ℤ)
    (hinv : EngineInv M s) (hc : c ∉ M)
    (hcount : count = ((specNeighbors s c ∩ M).card : ℤ)) :
    ∃ n s', AIState.add_knowledge n s c count = some s' := by
  have h1 : EngineInv M (s.ingest c count) := inv_ingest hinv hc hcount
  obtain ⟨n, s', hn⟩ := runFix_term (meas (s.ingest c count)) _ h1 le_rfl
  exact ⟨n, s', by rw [add_knowledge_def]; exact hn⟩

theorem claim_C4_witness :
    EngineInv {(0, 0)} ⟨1, 3, ∅, ∅, ∅, []⟩ ∧ (0, 2) ∉ ({(0, 0)} : Finset Cell) ∧
    (0 : ℤ) = ((specNeighbors ⟨1, 3, ∅, ∅, ∅, []⟩ (0, 2) ∩ {(0, 0)}).card : ℤ) ∧
    ∃ n s', AIState.add_knowledge n ⟨1, 3, ∅, ∅, ∅, []⟩ (0, 2) 0 = some s' :=
  ⟨by decide, by decide, by decide,
    claim_C4 ⟨1, 3, ∅, ∅, ∅, []⟩ {(0, 0)} (0, 2) 0 (by decide) (by decide) (by decide)⟩

/-- From an engine state holding the constraint that two hazards lie in the
single cell between two played cells, an observe call reporting three hazards
there makes every propagation pass re-derive and re-discard the same empty
sentences, so the loop never reaches a pass without change and observe never
returns, whatever the number of passes. -/
lemma observe_diverges :
    ∀ n : ℕ, AIState.add_knowledge n
      ⟨1, 3, {(0, 0)}, ∅, {(0, 0)}, [⟨{(0, 1)}, 2⟩]⟩ (0, 2) 3 = none := by
  have g0 : (⟨1, 3, {(0, 0)}, ∅, {(0, 0)}, [⟨{(0, 1)}, 2⟩]⟩ : AIState).ingest (0, 2) 3
      = ⟨1, 3, {(0, 0), (0, 2)}, ∅, {(0, 0), (0, 2)},
          [⟨{(0, 1)}, 2⟩, ⟨{(0, 1)}, 3⟩]⟩ := stEq.eq (by decide)
  have g1 : pass1 ⟨1, 3, {(0, 0), (0, 2)}, ∅, {(0, 0), (0, 2)},
        [⟨{(0, 1)}, 2⟩, ⟨{(0, 1)}, 3⟩]⟩
      = (⟨1, 3, {(0, 0), (0, 2)}, ∅, {(0, 0), (0, 2)},
          [⟨{(0, 1)}, 2⟩, ⟨{(0, 1)}, 3⟩, ⟨∅, 1⟩, ⟨∅, -1⟩]⟩, true) :=
    passEq (by decide) (by decide)
  have g2 : pass1 ⟨1, 3, {(0, 0), (0, 2)}, ∅, {(0, 0), (0, 2)},
        [⟨{(0, 1)}, 2⟩, ⟨{(0, 1)}, 3⟩, ⟨∅, 1⟩, ⟨∅, -1⟩]⟩
      = (⟨1, 3, {(0, 0), (0, 2)}, ∅, {(0, 0), (0, 2)},
          [⟨{(0, 1)}, 2⟩, ⟨{(0, 1)}, 3⟩, ⟨∅, 1⟩, ⟨∅, -1⟩]⟩, true) :=
    passEq (by decide) (by decide)
  have key : ∀ n : ℕ, runFix n ⟨1, 3, {(0, 0), (0, 2)}, ∅, {(0, 0), (0, 2)},
      [⟨{(0, 1)}, 2⟩, ⟨{(0, 1)}, 3⟩, ⟨∅, 1⟩, ⟨∅, -1⟩]⟩ = none := by
    intro n
    induction n with
    | zero => rfl
    | succ n ih =>
      rw [runFix_succ_true g2 n]
      exact ih
  intro n
  rw [add_knowledge_def, g0]
  cases n with
  | zero => rfl
  | succ n =>
    rw [runFix_succ_true g1 n]
    exact key n

/-- C4 counterexample: on the concrete engine state holding the constraint
that two hazards lie in the one cell between two played cells, the observe
call reporting three hazards there does not return within five passes, and
the state reached after the first pass is reproduced identically by every
further pass with the change flag still set, so the loop never converges for
any fuel (the lemma above states this for every pass count). -/
theorem claim_C4_counterexample :
    AIState.add_knowledge 5
      ⟨1, 3, {(0, 0)}, ∅, {(0, 0)}, [⟨{(0, 1)}, 2⟩]⟩ (0, 2) 3 = none ∧
    pass1 ⟨1, 3, {(0, 0), (0, 2)}, ∅, {(0, 0), (0, 2)},
        [⟨{(0, 1)}, 2⟩, ⟨{(0, 1)}, 3⟩, ⟨∅, 1⟩, ⟨∅, -1⟩]⟩
      = (⟨1, 3, {(0, 0), (0, 2)}, ∅, {(0, 0), (0, 2)},
          [⟨{(0, 1)}, 2⟩, ⟨{(0, 1)}, 3⟩, ⟨∅, 1⟩, ⟨∅, -1⟩]⟩, true) :=
  ⟨observe_diverges 5, passEq (by decide) (by decide)⟩
